import Mathlib

/-!
# The action-counter aggregator of `src/server/pkg/metrics/metrics.go`

A shallow embedding of the counter table (`userActions`), of the two data
cases of the `select` loop in `Reporter.ReportMetrics` (an increment received
on `incrementActionChannel`, a read request received on
`readBatchOfActionsChannel`), of `Reporter.reportUserMetrics`, and of the
rendezvous of the routines on the two unbuffered channels.

Go maps are finite, unordered and may be nil.  A map is modelled as either
`nilMap` or a list of entries in which the first entry of a key is the live
one; reading uses `GoMap.get?`, so every statement about a table is phrased
through look-ups and never through the order of the entries.  Writing to a
nil map and a failed type assertion are run-time panics, modelled as `none`.
`uint64` arithmetic is arithmetic of naturals modulo `2 ^ 64`.
-/

namespace Metrics

/-- Dynamic values of the Go type `interface{}`, the value type of
`countableActions`: the nil interface, or a value tagged with its dynamic type. -/
inductive GoValue where
  | nil
  | uint64 (n : Nat)
  | int (i : Int)
  | string (s : String)
  deriving DecidableEq, Repr

/-- The type assertion `val.(uint64)`; `none` is the run-time panic. -/
def GoValue.assertUint64 : GoValue → Option Nat
  | GoValue.uint64 n => some n
  | _ => none

/-- The first entry stored under key `k` in a list of entries. -/
def getEntry {V : Type} (k : String) : List (String × V) → Option V
  | [] => none
  | (k', v') :: rest => if k' = k then some v' else getEntry k rest

/-- Store `v` under `k`: overwrite the live entry of `k`, or add a new entry. -/
def putEntry {V : Type} (k : String) (v : V) : List (String × V) → List (String × V)
  | [] => [(k, v)]
  | (k', v') :: rest => if k' = k then (k, v) :: rest else (k', v') :: putEntry k v rest

/-- A Go `map[string]V`: the nil map, or an allocated map with its entries. -/
inductive GoMap (V : Type) where
  | nilMap
  | entries (kvs : List (String × V))
  deriving DecidableEq, Repr

namespace GoMap

variable {V : Type}

/-- The Go expression `make(map[string]V)`: an allocated, empty map. -/
def make : GoMap V := entries []

/-- The Go expression `m == nil`. -/
def isNil : GoMap V → Bool
  | nilMap => true
  | entries _ => false

/-- The Go expression `v, ok := m[k]`; reading a nil map finds nothing. -/
def get? (m : GoMap V) (k : String) : Option V :=
  match m with
  | nilMap => none
  | entries kvs => getEntry k kvs

/-- The Go statement `m[k] = v`; `none` is the panic of writing to a nil map. -/
def assign (m : GoMap V) (k : String) (v : V) : Option (GoMap V) :=
  match m with
  | nilMap => none
  | entries kvs => some (entries (putEntry k v kvs))

/-- The Go expression `len(m)`. -/
def len : GoMap V → Nat
  | nilMap => 0
  | entries kvs => kvs.length

end GoMap

/-- Line 41: `type countableActions map[string]interface{}`. -/
abbrev countableActions := GoMap GoValue

/-- Line 42: `type countableUserActions map[string]countableActions`. -/
abbrev countableUserActions := GoMap countableActions

/-- The Go expression `userActions[user]` in value position: the zero value of
`countableActions`, the nil map, when the key is absent. -/
def index (t : countableUserActions) (user : String) : countableActions :=
  match t.get? user with
  | some actions => actions
  | none => GoMap.nilMap

/-- Line 44: `var userActions = make(countableUserActions)`, the initial table. -/
def userActions : countableUserActions := GoMap.make

/-- Lines 46-49: the message carried by `incrementActionChannel`. -/
structure incrementUserAction where
  action : String
  user : String
  deriving DecidableEq, Repr

/-- Lines 60-65: `IncrementUserAction(userID, action)` sends this message. -/
def IncrementUserAction (userID : String) (action : String) : incrementUserAction :=
  { action := action, user := userID }

/-- Lines 104-106: allocate the per-user map when `userActions[user] == nil`. -/
def ensureUser (t : countableUserActions) (user : String) : Option countableUserActions :=
  if (index t user).isNil then t.assign user GoMap.make else some t

/-- Lines 107-112: the comma-ok read of the action and the store of its new
count into the per-user map. -/
def bumpAction (actions : countableActions) (action : String) : Option countableActions :=
  match actions.get? action with
  | some val =>
    match val.assertUint64 with
    | some n => actions.assign action (GoValue.uint64 ((n + 1) % 2 ^ 64))
    | none => none
  | none => actions.assign action (GoValue.uint64 0)

/-- Lines 103-113: the `incrementActionChannel` case of the `select` loop.
The per-user map is a reference in Go, so the update of `userActions[user]`
in place is written back under the same key here. -/
def incrementCase (t : countableUserActions) (incrementAction : incrementUserAction) :
    Option countableUserActions :=
  match ensureUser t incrementAction.user with
  | none => none
  | some t1 =>
    match bumpAction (index t1 incrementAction.user) incrementAction.action with
    | none => none
    | some actions => t1.assign incrementAction.user actions

/-- Lines 114-116: the `readBatchOfActionsChannel` case: the batch sent on the
reply channel, paired with the new value of `userActions`. -/
def readBatchCase (t : countableUserActions) : countableUserActions × countableUserActions :=
  (t, GoMap.make)

/-- Lines 130-132: the batch is passed to `reportUserMetricsToSegment` when
`len(batchOfUserActions) > 0`; the sink is the log of the batches passed. -/
def forwardBatch (batch : countableUserActions) (sink : List countableUserActions) :
    List countableUserActions :=
  if batch.len > 0 then sink ++ [batch] else sink

/-- The count stored for the pair `(user, action)`: `userActions[user][action]`
read with comma-ok. -/
def countOf (t : countableUserActions) (user : String) (action : String) : Option GoValue :=
  (index t user).get? action

/-- Apply the increment case to a sequence of messages, in order. -/
def runIncrements (t : countableUserActions) :
    List incrementUserAction → Option countableUserActions
  | [] => some t
  | e :: es =>
    match incrementCase t e with
    | none => none
    | some t1 => runIncrements t1 es


/-- Lines 124-133: `reportUserMetrics`, with its request on
`readBatchOfActionsChannel` served by the read case of a `ReportMetrics` loop
that owns the table `t`.  Returns the table left behind and the sink. -/
def reportUserMetrics (t : countableUserActions) (sink : List countableUserActions) :
    countableUserActions × List countableUserActions :=
  let served := readBatchCase t
  (served.2, forwardBatch served.1 sink)

/-- The two data messages the `select` loop of `ReportMetrics` receives. -/
inductive Request where
  | increment (e : incrementUserAction)
  | readBatch
  deriving DecidableEq, Repr

/-- The state of the aggregator seen from outside: the table, and the batches
it has sent on reply channels so far, oldest first. -/
structure LoopState where
  table : countableUserActions
  batches : List countableUserActions
  deriving DecidableEq, Repr

/-- One iteration of the `select` loop on a data message (lines 103-116). -/
def selectCase (s : LoopState) : Request → Option LoopState
  | Request.increment e =>
    match incrementCase s.table e with
    | none => none
    | some t => some { table := t, batches := s.batches }
  | Request.readBatch =>
    some { table := (readBatchCase s.table).2, batches := s.batches ++ [(readBatchCase s.table).1] }

/-- Lines 99-122: the `select` loop of `ReportMetrics` over the data messages it
receives, in arrival order.  The ticker case is part of `step` below. -/
def ReportMetrics (s : LoopState) : List Request → Option LoopState
  | [] => some s
  | r :: rs =>
    match selectCase s r with
    | none => none
    | some s1 => ReportMetrics s1 rs

/-- The state of the aggregator at process start. -/
def initialLoop : LoopState := { table := userActions, batches := [] }

/-- The messages of a sequence of `record(u, a)` calls. -/
def increments (es : List incrementUserAction) : List Request :=
  es.map Request.increment

/-- The number of `record(user, action)` events in a sequence. -/
def occurrences (es : List incrementUserAction) (user : String) (action : String) : Nat :=
  es.count { action := action, user := user }

/-- A count read from a batch as a number, a missing pair counting as 0. -/
def countNat (t : countableUserActions) (user : String) (action : String) : Nat :=
  match countOf t user action with
  | some (GoValue.uint64 n) => n
  | _ => 0

/-- Two per-user maps with the same actions and the same counts. -/
def sameActions (m1 m2 : countableActions) : Prop :=
  m1.isNil = m2.isNil ∧ ∀ action, m1.get? action = m2.get? action

/-- Two tables with the same users, the same actions and the same counts. -/
def sameTable (t1 t2 : countableUserActions) : Prop :=
  t1.isNil = t2.isNil ∧
    ∀ user,
      match t1.get? user, t2.get? user with
      | some m1, some m2 => sameActions m1 m2
      | none, none => True
      | _, _ => False

/-- Two runs that both panic, or both end in the same table. -/
def sameOutcome (r1 r2 : Option countableUserActions) : Prop :=
  match r1, r2 with
  | some t1, some t2 => sameTable t1 t2
  | none, none => True
  | _, _ => False

/-- Every value of the table has dynamic type `uint64`, and no map in it is nil. -/
def wellTyped (t : countableUserActions) : Prop :=
  t.isNil = false ∧
    ∀ user m, t.get? user = some m →
      m.isNil = false ∧
        ∀ action v, m.get? action = some v → ∃ n, n < 2 ^ 64 ∧ v = GoValue.uint64 n

/-- Where a routine executing `ReportMetrics` stands. -/
inductive Loc where
  /-- Line 102: waiting in the `select`. -/
  | atSelect
  /-- Line 128: in the ticker case, inside `reportUserMetrics`, sending the
  request on the unbuffered `readBatchOfActionsChannel`. -/
  | atSendRequest
  /-- Line 129: request delivered, receiving on its own reply channel. -/
  | atReceiveBatch
  /-- Line 115: in the read case, sending `userActions` on the reply channel
  of the requesting routine. -/
  | atSendBatch (requester : Nat)
  deriving DecidableEq, Repr

/-- The routines executing `ReportMetrics` (a routine is named by its position),
the package-level table they share, and the reporting sink. -/
structure System where
  routines : List Loc
  table : countableUserActions
  sink : List countableUserActions
  deriving DecidableEq, Repr

/-- The events of the system.  A send on an unbuffered channel happens together
with the matching receive of another routine. -/
inductive Action where
  /-- The ticker of routine `i` fires (line 117). -/
  | tick (i : Nat)
  /-- A caller of `IncrementUserAction` hands `e` to routine `i` (lines 61, 103). -/
  | deliver (i : Nat) (e : incrementUserAction)
  /-- The send of routine `i` at line 128 meets the receive of routine `j` at line 114. -/
  | request (i j : Nat)
  /-- The send of routine `j` at line 115 meets the receive of routine `i` at line 129. -/
  | reply (j i : Nat)
  deriving DecidableEq, Repr

/-- Whether an event can happen in a state. -/
def enabled (s : System) : Action → Bool
  | Action.tick i => s.routines.get? i == some Loc.atSelect
  | Action.deliver i _ => s.routines.get? i == some Loc.atSelect
  | Action.request i j =>
    s.routines.get? i == some Loc.atSendRequest && s.routines.get? j == some Loc.atSelect
  | Action.reply j i =>
    s.routines.get? j == some (Loc.atSendBatch i) && s.routines.get? i == some Loc.atReceiveBatch

/-- The state after an event; `none` when the event is not enabled or the
increment case panics. -/
def step (s : System) (a : Action) : Option System :=
  if enabled s a then
    match a with
    | Action.tick i =>
      some { s with routines := s.routines.set i Loc.atSendRequest }
    | Action.deliver _ e =>
      match incrementCase s.table e with
      | none => none
      | some t => some { s with table := t }
    | Action.request i j =>
      some { s with
        routines := (s.routines.set i Loc.atReceiveBatch).set j (Loc.atSendBatch i) }
    | Action.reply j i =>
      some { routines := (s.routines.set j Loc.atSelect).set i Loc.atSelect
             table := (readBatchCase s.table).2
             sink := forwardBatch (readBatchCase s.table).1 s.sink }
  else none

/-- Run a schedule of events. -/
def runSystem (s : System) : List Action → Option System
  | [] => some s
  | a :: as =>
    match step s a with
    | none => none
    | some s1 => runSystem s1 as

/-- A routine is stuck in a state when no schedule of events ever moves it. -/
def stuck (s : System) (i : Nat) : Prop :=
  ∀ (as : List Action) (s1 : System), runSystem s as = some s1 →
    s1.routines.get? i = s.routines.get? i

/-- The look-up content of a per-user map. -/
structure ActionsView where
  isNil : Bool
  get : String → Option GoValue

/-- The look-up content of a table. -/
structure TableView where
  isNil : Bool
  get : String → Option ActionsView

/-- A per-user map seen through `isNil` and `get?`. -/
def viewActions (m : countableActions) : ActionsView := ⟨m.isNil, m.get?⟩

/-- A table seen through `isNil` and `get?`. -/
def viewTable (t : countableUserActions) : TableView :=
  ⟨t.isNil, fun u => (t.get? u).map viewActions⟩

/-- The look-ups of the per-user map after lines 104-106: those of the stored
map, or none at all when the stored map is absent or nil. -/
def viewContent (f : String → Option ActionsView) (user : String) : String → Option GoValue :=
  match f user with
  | some m => if m.isNil then fun _ => none else m.get
  | none => fun _ => none

/-- Lines 107-112 on look-ups. -/
def viewBump (g : String → Option GoValue) (action : String) : Option (String → Option GoValue) :=
  match g action with
  | some val =>
    match val.assertUint64 with
    | some n => some (Function.update g action (some (GoValue.uint64 ((n + 1) % 2 ^ 64))))
    | none => none
  | none => some (Function.update g action (some (GoValue.uint64 0)))

/-- The increment case on look-up contents. -/
def viewIncrement (t : TableView) (e : incrementUserAction) : Option TableView :=
  if t.isNil then none
  else
    match viewBump (viewContent t.get e.user) e.action with
    | some g => some ⟨false, Function.update t.get e.user (some ⟨false, g⟩)⟩
    | none => none

/-- The increment case on look-up contents, lifted to a run that may have panicked. -/
def viewStep (o : Option TableView) (e : incrementUserAction) : Option TableView :=
  match o with
  | none => none
  | some t => viewIncrement t e

/-- The count the code holds for a pair that occurred `c` times since the table
was empty: nothing for `c = 0`, and `c - 1` as a `uint64` otherwise. -/
def heldCount (c : Nat) : Option GoValue :=
  if c = 0 then none else some (GoValue.uint64 ((c - 1) % 2 ^ 64))

/-- The look-up content of the table after a sequence of increments of the empty table. -/
def countedView (es : List incrementUserAction) : TableView :=
  ⟨false, fun u =>
    if es.any (fun e => e.user == u) then
      some ⟨false, fun a => heldCount (occurrences es u a)⟩
    else none⟩

/-- Every look-up of a per-user content yields a `uint64` value. -/
def countsView (g : String → Option GoValue) : Prop :=
  ∀ a x, g a = some x → ∃ n, n < 2 ^ 64 ∧ x = GoValue.uint64 n

/-- The property `wellTyped` on look-up contents. -/
def wellTypedView (v : TableView) : Prop :=
  v.isNil = false ∧ ∀ u m, v.get u = some m → m.isNil = false ∧ countsView m.get

theorem getEntry_putEntry {V : Type} (k k' : String) (v : V) (l : List (String × V)) :
    getEntry k' (putEntry k v l) = if k = k' then some v else getEntry k' l := by
  induction l with
  | nil => simp [putEntry, getEntry]
  | cons p rest ih =>
    obtain ⟨k0, v0⟩ := p
    by_cases h0 : k0 = k <;> by_cases h1 : k0 = k' <;> by_cases h2 : k = k' <;>
      simp_all [putEntry, getEntry]

theorem get?_update {V : Type} (k : String) (v : V) (l : List (String × V)) :
    (GoMap.entries (putEntry k v l)).get? = Function.update (GoMap.entries l).get? k (some v) := by
  funext k'
  simp only [GoMap.get?, getEntry_putEntry, Function.update_apply]
  by_cases h : k = k'
  · subst h; simp
  · have : ¬ k' = k := fun h' => h h'.symm
    simp [h, this]

theorem viewTable_assign (kvs : List (String × countableActions)) (u : String)
    (m : countableActions) :
    viewTable (GoMap.entries (putEntry u m kvs)) =
      ⟨false, Function.update (viewTable (GoMap.entries kvs)).get u (some (viewActions m))⟩ := by
  simp only [viewTable, GoMap.isNil, get?_update, TableView.mk.injEq, true_and]
  funext u'
  by_cases h : u' = u <;> simp [Function.update_apply, h]

theorem viewActions_assign (l : List (String × GoValue)) (a : String) (v : GoValue) :
    viewActions (GoMap.entries (putEntry a v l)) =
      ⟨false, Function.update (GoMap.entries l).get? a (some v)⟩ := by
  simp [viewActions, GoMap.isNil, get?_update]

theorem get?_make {V : Type} : (GoMap.entries ([] : List (String × V))).get? = fun _ => none := by
  funext k
  simp [GoMap.get?, getEntry]

theorem viewTable_incrementCase (t : countableUserActions) (e : incrementUserAction) :
    (incrementCase t e).map viewTable = viewIncrement (viewTable t) e := by
  cases t with
  | nilMap => simp [incrementCase, ensureUser, index, GoMap.get?, GoMap.isNil, GoMap.assign, viewIncrement, viewTable]
  | entries kvs =>
    cases hu : getEntry e.user kvs with
    | none =>
      simp [incrementCase, ensureUser, index, GoMap.get?, GoMap.isNil, GoMap.assign, hu,
        getEntry_putEntry, bumpAction, GoMap.make, getEntry, GoValue.assertUint64]
      rw [viewTable_assign, viewTable_assign, viewActions_assign, get?_make]
      simp [viewIncrement, viewBump, viewContent, viewTable, GoMap.isNil, GoMap.get?, hu, getEntry, GoValue.assertUint64]
    | some m =>
      cases m with
      | nilMap =>
        simp [incrementCase, ensureUser, index, GoMap.get?, GoMap.isNil, GoMap.assign, hu,
          getEntry_putEntry, bumpAction, GoMap.make, getEntry, GoValue.assertUint64]
        rw [viewTable_assign, viewTable_assign, viewActions_assign, get?_make]
        simp [viewIncrement, viewBump, viewContent, viewTable, GoMap.isNil, GoMap.get?, hu, getEntry,
          GoValue.assertUint64, viewActions]
      | entries l =>
        cases ha : getEntry e.action l with
        | none =>
          simp [incrementCase, ensureUser, index, GoMap.get?, GoMap.isNil, GoMap.assign, hu, ha,
            getEntry_putEntry, bumpAction, GoMap.make, getEntry, GoValue.assertUint64]
          rw [viewTable_assign, viewActions_assign]
          simp [viewIncrement, viewBump, viewContent, viewTable, GoMap.isNil, GoMap.get?, hu, ha, getEntry,
            GoValue.assertUint64, viewActions]
        | some v =>
          cases hv : v.assertUint64 with
          | none =>
            simp [incrementCase, ensureUser, index, GoMap.get?, GoMap.isNil, GoMap.assign, hu, ha,
              getEntry_putEntry, bumpAction, GoMap.make, getEntry, hv]
            simp [viewIncrement, viewBump, viewContent, viewTable, GoMap.isNil, GoMap.get?, hu, ha, getEntry,
              hv, viewActions]
          | some n =>
            simp [incrementCase, ensureUser, index, GoMap.get?, GoMap.isNil, GoMap.assign, hu, ha,
              getEntry_putEntry, bumpAction, GoMap.make, getEntry, hv]
            rw [viewTable_assign, viewActions_assign]
            simp [viewIncrement, viewBump, viewContent, viewTable, GoMap.isNil, GoMap.get?, hu, ha, getEntry,
              hv, viewActions]

theorem viewTable_runIncrements (es : List incrementUserAction) (t : countableUserActions) :
    (runIncrements t es).map viewTable = es.foldl viewStep (some (viewTable t)) := by
  induction es generalizing t with
  | nil => simp [runIncrements]
  | cons e es ih =>
    have h := viewTable_incrementCase t e
    cases hc : incrementCase t e with
    | none =>
      rw [hc] at h
      have hn : ∀ l : List incrementUserAction, l.foldl viewStep none = none := by
        intro l
        induction l with
        | nil => rfl
        | cons x xs ihx => simpa [viewStep] using ihx
      simp [runIncrements, hc, viewStep, ← h, hn]
    | some t1 =>
      rw [hc] at h
      simp [runIncrements, hc, viewStep, ← h, ih]

theorem viewContent_update_ne (f : String → Option ActionsView) (u u' : String)
    (x : Option ActionsView) (h : u' ≠ u) :
    viewContent (Function.update f u x) u' = viewContent f u' := by
  simp [viewContent, Function.update_apply, h]

theorem viewContent_update_same (f : String → Option ActionsView) (u : String)
    (g : String → Option GoValue) :
    viewContent (Function.update f u (some ⟨false, g⟩)) u = g := by
  simp [viewContent]

theorem viewBump_comm (g : String → Option GoValue) (a1 a2 : String) :
    (viewBump g a1).bind (fun g1 => viewBump g1 a2) =
      (viewBump g a2).bind (fun g2 => viewBump g2 a1) := by
  by_cases ha : a1 = a2
  · subst ha; rfl
  · have ha' : ¬ a2 = a1 := fun h => ha h.symm
    have hc : ∀ x y, Function.update (Function.update g a1 x) a2 y =
        Function.update (Function.update g a2 y) a1 x :=
      fun x y => (Function.update_comm ha x y g)
    cases h1 : g a1 with
    | none =>
      cases h2 : g a2 with
      | none => simp [viewBump, h1, h2, Function.update_apply, ha, ha', hc]
      | some v2 =>
        cases hv2 : v2.assertUint64 <;>
          simp [viewBump, h1, h2, hv2, Function.update_apply, ha, ha', hc]
    | some v1 =>
      cases hv1 : v1.assertUint64 <;> cases h2 : g a2 with
      | none => simp [viewBump, h1, h2, hv1, Function.update_apply, ha, ha', hc]
      | some v2 =>
        cases hv2 : v2.assertUint64 <;>
          simp [viewBump, h1, h2, hv1, hv2, Function.update_apply, ha, ha', hc]

theorem viewStep_comm (o : Option TableView) (e1 e2 : incrementUserAction) :
    viewStep (viewStep o e1) e2 = viewStep (viewStep o e2) e1 := by
  cases o with
  | none => rfl
  | some t =>
    obtain ⟨nilT, f⟩ := t
    obtain ⟨a1, u1⟩ := e1
    obtain ⟨a2, u2⟩ := e2
    cases nilT with
    | true => simp [viewStep, viewIncrement]
    | false =>
      by_cases hu : u1 = u2
      · subst hu
        have hb := viewBump_comm (viewContent f u1) a1 a2
        cases h1 : viewBump (viewContent f u1) a1 <;>
          cases h2 : viewBump (viewContent f u1) a2 <;>
          simp [viewStep, viewIncrement, h1, h2, viewContent_update_same] at hb ⊢
        · rw [← hb]
        · rw [hb]
        · rw [hb]
      · have hu' : ¬ u2 = u1 := fun h => hu h.symm
        have hc : ∀ x y, Function.update (Function.update f u1 x) u2 y =
            Function.update (Function.update f u2 y) u1 x :=
          fun x y => (Function.update_comm hu x y f)
        cases h1 : viewBump (viewContent f u1) a1 <;>
          cases h2 : viewBump (viewContent f u2) a2 <;>
          simp [viewStep, viewIncrement, h1, h2, viewContent_update_ne, hu, hu', hc]

theorem foldl_viewStep_perm {s1 s2 : List incrementUserAction} (h : s1.Perm s2)
    (o : Option TableView) : s1.foldl viewStep o = s2.foldl viewStep o :=
  List.Perm.foldl_eq' h (fun x _ y _ z => viewStep_comm z x y) o

theorem ReportMetrics_increments (es : List incrementUserAction) (t : countableUserActions)
    (batches : List countableUserActions) (rest : List Request) :
    ReportMetrics { table := t, batches := batches } (increments es ++ rest) =
      match runIncrements t es with
      | none => none
      | some t1 => ReportMetrics { table := t1, batches := batches } rest := by
  induction es generalizing t with
  | nil => simp [increments, runIncrements]
  | cons e es ih =>
    cases hc : incrementCase t e with
    | none => simp [increments, ReportMetrics, selectCase, runIncrements, hc]
    | some t1 =>
      have := ih t1
      simp only [increments] at this
      simp [increments, ReportMetrics, selectCase, runIncrements, hc, this]

theorem len_pos_iff {V : Type} (m : GoMap V) :
    0 < m.len ↔ ∃ k, (m.get? k).isSome = true := by
  cases m with
  | nilMap => simp [GoMap.len, GoMap.get?]
  | entries kvs =>
    cases kvs with
    | nil => simp [GoMap.len, GoMap.get?, getEntry]
    | cons p l =>
      simp only [GoMap.len, List.length_cons, Nat.zero_lt_succ, GoMap.get?, true_iff]
      exact ⟨p.1, by simp [getEntry]⟩

/-- C1 (the code at the scenario of the claim): three `record` events, alice/Commit
twice and bob/Pipeline once, followed by a drain.  The batch the code returns holds
1 for alice/Commit and 0 for bob/Pipeline, one less than the number of events of
each pair, where the claim requires 2 and 1. -/
theorem drain_after_three_records_undercounts :
    ReportMetrics initialLoop
        (increments [IncrementUserAction "alice" "Commit", IncrementUserAction "alice" "Commit",
          IncrementUserAction "bob" "Pipeline"] ++ [Request.readBatch]) =
      some { table := GoMap.make
             batches := [GoMap.entries
               [("alice", GoMap.entries [("Commit", GoValue.uint64 1)]),
                ("bob", GoMap.entries [("Pipeline", GoValue.uint64 0)])]] } ∧
    occurrences [IncrementUserAction "alice" "Commit", IncrementUserAction "alice" "Commit",
      IncrementUserAction "bob" "Pipeline"] "alice" "Commit" = 2 ∧
    occurrences [IncrementUserAction "alice" "Commit", IncrementUserAction "alice" "Commit",
      IncrementUserAction "bob" "Pipeline"] "bob" "Pipeline" = 1 := by
  decide

/-- C2 (the code at a fresh pair): on the empty table, one increment of
alice/Commit followed by a drain returns a batch whose count for alice/Commit
is 0, where the claim requires 1. -/
theorem fresh_pair_counts_zero :
    ReportMetrics initialLoop [Request.increment (IncrementUserAction "alice" "Commit"),
        Request.readBatch] =
      some { table := GoMap.make
             batches := [GoMap.entries [("alice", GoMap.entries [("Commit", GoValue.uint64 0)])]] } ∧
    countOf userActions "alice" "Commit" = none ∧
    countOf (GoMap.entries [("alice", GoMap.entries [("Commit", GoValue.uint64 0)])])
      "alice" "Commit" = some (GoValue.uint64 0) := by
  decide

/-- C3: the read case of the loop sends the table itself as the batch: the batch
equals the table as it stood before the drain, so it has the same users, the same
actions and the same counts and nothing else, and the batch drained after a
sequence of increments is the table those increments produced. -/
theorem readBatch_returns_whole_table (t : countableUserActions)
    (batches : List countableUserActions) (es : List incrementUserAction) :
    (readBatchCase t).1 = t ∧
    (∀ user, (readBatchCase t).1.get? user = t.get? user) ∧
    (∀ user action, countOf (readBatchCase t).1 user action = countOf t user action) ∧
    (readBatchCase t).1.len = t.len ∧
    selectCase { table := t, batches := batches } Request.readBatch =
      some { table := GoMap.make, batches := batches ++ [t] } ∧
    ReportMetrics { table := t, batches := batches } (increments es ++ [Request.readBatch]) =
      (runIncrements t es).map
        (fun t1 => { table := GoMap.make, batches := batches ++ [t1] }) := by
  refine ⟨rfl, fun _ => rfl, fun _ _ => rfl, rfl, rfl, ?_⟩
  rw [ReportMetrics_increments]
  cases runIncrements t es <;> simp [ReportMetrics, selectCase, readBatchCase]

/-- C4: after the read case the table is the empty map, with no user key; a second
drain right after a drain returns the empty batch; and a drain of the initial table
returns the empty batch. -/
theorem table_empty_after_readBatch (t : countableUserActions)
    (batches : List countableUserActions) :
    (readBatchCase t).2 = GoMap.make ∧
    (∀ user, (readBatchCase t).2.get? user = none) ∧
    (readBatchCase t).2.len = 0 ∧
    (readBatchCase (readBatchCase t).2).1 = GoMap.make ∧
    ReportMetrics { table := t, batches := batches } [Request.readBatch, Request.readBatch] =
      some { table := GoMap.make, batches := batches ++ [t, GoMap.make] } ∧
    ReportMetrics initialLoop [Request.readBatch] =
      some { table := GoMap.make, batches := [GoMap.make] } := by
  refine ⟨rfl, fun _ => rfl, rfl, rfl, ?_, rfl⟩
  simp [ReportMetrics, selectCase, readBatchCase]

/-- C5 (the code at two records of one pair, one before each drain): both batches
hold 0 for alice/Commit, so their counts add up to 0, where the two sequences
together hold 2 events of the pair. -/
theorem consecutive_drains_lose_first_occurrences :
    ReportMetrics initialLoop
        (increments [IncrementUserAction "alice" "Commit"] ++ [Request.readBatch] ++
          increments [IncrementUserAction "alice" "Commit"] ++ [Request.readBatch]) =
      some { table := GoMap.make
             batches := [GoMap.entries [("alice", GoMap.entries [("Commit", GoValue.uint64 0)])],
                         GoMap.entries [("alice", GoMap.entries [("Commit", GoValue.uint64 0)])]] } ∧
    countNat (GoMap.entries [("alice", GoMap.entries [("Commit", GoValue.uint64 0)])])
        "alice" "Commit" +
      countNat (GoMap.entries [("alice", GoMap.entries [("Commit", GoValue.uint64 0)])])
        "alice" "Commit" = 0 ∧
    occurrences ([IncrementUserAction "alice" "Commit"] ++ [IncrementUserAction "alice" "Commit"])
      "alice" "Commit" = 2 := by
  decide

/-- C6: `reportUserMetrics` appends the drained batch to the sink, once, exactly
when the batch has at least one user key, and leaves the sink as it was exactly
when the batch has none; the table is left empty either way. -/
theorem reportUserMetrics_forwards_iff_nonempty (t : countableUserActions)
    (sink : List countableUserActions) :
    ((reportUserMetrics t sink).2 = sink ++ [t] ↔ ∃ user, (t.get? user).isSome = true) ∧
    ((reportUserMetrics t sink).2 = sink ↔ ¬ ∃ user, (t.get? user).isSome = true) ∧
    (reportUserMetrics t sink).1 = GoMap.make := by
  have hne : sink ++ [t] ≠ sink := by
    intro h
    have := congrArg List.length h
    simp at this
  have hlen := len_pos_iff t
  refine ⟨?_, ?_, rfl⟩
  · by_cases h : 0 < t.len
    · simp [reportUserMetrics, forwardBatch, readBatchCase, h, hlen.mp h]
    · have h2 : ¬ ∃ user, (t.get? user).isSome = true := fun hx => h (hlen.mpr hx)
      simp only [reportUserMetrics, forwardBatch, readBatchCase, h, if_false, gt_iff_lt]
      exact ⟨fun hx => absurd hx.symm hne, fun hx => absurd hx h2⟩
  · by_cases h : 0 < t.len
    · simp only [reportUserMetrics, forwardBatch, readBatchCase, h, if_true, gt_iff_lt]
      exact ⟨fun hx => absurd hx hne, fun hx => absurd (hlen.mp h) hx⟩
    · have h2 : ¬ ∃ user, (t.get? user).isSome = true := fun hx => h (hlen.mpr hx)
      simp only [reportUserMetrics, forwardBatch, readBatchCase, h, if_false, gt_iff_lt]
      exact ⟨fun _ => h2, fun _ => trivial⟩

theorem sameTable_of_view_eq (t1 t2 : countableUserActions)
    (h : viewTable t1 = viewTable t2) : sameTable t1 t2 := by
  have hnil : t1.isNil = t2.isNil := congrArg TableView.isNil h
  have hget : ∀ u, (t1.get? u).map viewActions = (t2.get? u).map viewActions :=
    fun u => congrFun (congrArg TableView.get h) u
  refine ⟨hnil, fun u => ?_⟩
  have hu := hget u
  cases h1 : t1.get? u <;> cases h2 : t2.get? u <;> simp [h1, h2] at hu ⊢
  exact ⟨congrArg ActionsView.isNil hu, fun a => congrFun (congrArg ActionsView.get hu) a⟩

theorem enabled_single_blocked (t : countableUserActions) (sink : List countableUserActions)
    (a : Action) :
    enabled { routines := [Loc.atSendRequest], table := t, sink := sink } a = false := by
  cases a with
  | tick i => cases i <;> simp [enabled]
  | deliver i e => cases i <;> simp [enabled]
  | request i j => cases i <;> cases j <;> simp [enabled]
  | reply j i => cases i <;> cases j <;> simp [enabled]

/-- With a second routine in the loop the handshake of a tick goes through: the
request is received, the batch is sent back and both routines return to the `select`. -/
theorem two_routines_tick_completes (t : countableUserActions)
    (sink : List countableUserActions) :
    runSystem { routines := [Loc.atSelect, Loc.atSelect], table := t, sink := sink }
        [Action.tick 0, Action.request 0 1, Action.reply 1 0] =
      some { routines := [Loc.atSelect, Loc.atSelect], table := GoMap.make,
             sink := forwardBatch t sink } := by
  simp [runSystem, step, enabled, readBatchCase]

/-- C7 (the code with one routine in `ReportMetrics`): the first tick takes the
routine from the `select` to the send of line 128; in that state no event of the
system is enabled, neither the delivery of its own request nor the delivery of an
increment, so every schedule leaves the routine at that send: the tick never
completes and control never returns to the `select`. -/
theorem single_routine_blocks_at_first_tick (t : countableUserActions)
    (sink : List countableUserActions) :
    step { routines := [Loc.atSelect], table := t, sink := sink } (Action.tick 0) =
      some { routines := [Loc.atSendRequest], table := t, sink := sink } ∧
    (∀ a, enabled { routines := [Loc.atSendRequest], table := t, sink := sink } a = false) ∧
    stuck { routines := [Loc.atSendRequest], table := t, sink := sink } 0 := by
  refine ⟨by simp [step, enabled], enabled_single_blocked t sink, ?_⟩
  intro as s1 h
  cases as with
  | nil =>
    simp only [runSystem, Option.some.injEq] at h
    rw [← h]
  | cons a rest =>
    simp [runSystem, step, enabled_single_blocked t sink a] at h

theorem occurrences_snoc (es : List incrementUserAction) (e : incrementUserAction)
    (u a : String) :
    occurrences (es ++ [e]) u a =
      occurrences es u a + (if u = e.user ∧ a = e.action then 1 else 0) := by
  obtain ⟨ea, eu⟩ := e
  simp only [occurrences, List.count_append, List.count_singleton]
  by_cases h : u = eu ∧ a = ea
  · obtain ⟨h1, h2⟩ := h
    subst h1 h2
    simp
  · have : ¬ ({ action := ea, user := eu } : incrementUserAction) = { action := a, user := u } := by
      intro hx
      injection hx with h1 h2
      exact h ⟨h2.symm, h1.symm⟩
    simp [h, this]

theorem occurrences_eq_zero_of_no_user (es : List incrementUserAction) (u a : String)
    (h : es.any (fun e => e.user == u) = false) : occurrences es u a = 0 := by
  simp only [occurrences, List.count_eq_zero]
  intro hm
  have : es.any (fun e => e.user == u) = true := List.any_eq_true.mpr ⟨_, hm, by simp⟩
  rw [h] at this
  exact Bool.noConfusion this

theorem viewContent_countedView (es : List incrementUserAction) (u : String) :
    viewContent (countedView es).get u = fun a => heldCount (occurrences es u a) := by
  cases h : es.any (fun e => e.user == u) with
  | true => simp only [viewContent, countedView, h, if_true, Bool.false_eq_true, if_false]
  | false =>
    funext a
    simp only [viewContent, countedView, h, Bool.false_eq_true, if_false,
      occurrences_eq_zero_of_no_user es u a h, heldCount, if_true]

theorem viewBump_heldCount (es : List incrementUserAction) (e : incrementUserAction) :
    viewBump (fun a => heldCount (occurrences es e.user a)) e.action =
      some (fun a => heldCount (occurrences (es ++ [e]) e.user a)) := by
  by_cases hc : occurrences es e.user e.action = 0
  · simp only [viewBump, heldCount, hc, if_true]
    congr 1
    funext a
    by_cases ha : a = e.action
    · subst ha
      simp [occurrences_snoc, hc]
    · simp [occurrences_snoc, ha, Function.update_apply]
  · simp only [viewBump, heldCount, hc, if_false, GoValue.assertUint64]
    congr 1
    funext a
    by_cases ha : a = e.action
    · subst ha
      have h1 : occurrences es e.user e.action - 1 + 1 = occurrences es e.user e.action := by
        omega
      simp [occurrences_snoc, h1]
    · simp [occurrences_snoc, ha, Function.update_apply]

theorem viewIncrement_countedView (es : List incrementUserAction) (e : incrementUserAction) :
    viewIncrement (countedView es) e = some (countedView (es ++ [e])) := by
  have hb := viewBump_heldCount es e
  rw [← viewContent_countedView] at hb
  have hnil : (countedView es).isNil = false := rfl
  simp only [viewIncrement, hnil, hb, Bool.false_eq_true, if_false]
  congr 1
  simp only [countedView, TableView.mk.injEq, true_and]
  funext u
  by_cases hu : u = e.user
  · subst hu
    simp
  · have hu' : ¬ e.user = u := fun h => hu h.symm
    simp [Function.update_apply, hu, hu', occurrences_snoc]

theorem foldl_viewStep_countedView (es : List incrementUserAction) :
    es.foldl viewStep (some (viewTable userActions)) = some (countedView es) := by
  induction es using List.reverseRecOn with
  | nil =>
    simp [viewTable, userActions, GoMap.make, GoMap.isNil, GoMap.get?, getEntry, countedView]
  | append_singleton es e ih =>
    rw [List.foldl_append, ih]
    simp [viewStep, viewIncrement_countedView]

/-- C8: for every sequence of increment messages applied in order to the empty
table the run does not panic, and in the resulting table a pair that occurs
`n >= 1` times holds the `uint64` count `(n - 1) mod 2 ^ 64`, a pair that does not
occur holds no entry, and a user is a key exactly when some message names it. -/
theorem first_occurrence_stores_zero (es : List incrementUserAction) (user action : String) :
    ∃ t, runIncrements userActions es = some t ∧
      countOf t user action =
        (if occurrences es user action = 0 then none
         else some (GoValue.uint64 ((occurrences es user action - 1) % 2 ^ 64))) ∧
      ((t.get? user).isSome = true ↔ ∃ e ∈ es, e.user = user) := by
  have hv := viewTable_runIncrements es userActions
  rw [foldl_viewStep_countedView] at hv
  cases hr : runIncrements userActions es with
  | none => simp [hr] at hv
  | some t =>
    rw [hr] at hv
    simp only [Option.map_some', Option.some.injEq] at hv
    refine ⟨t, rfl, ?_⟩
    have hget : (t.get? user).map viewActions = (countedView es).get user :=
      congrFun (congrArg TableView.get hv) user
    cases hany : es.any (fun e => e.user == user) with
    | true =>
      have hex : ∃ e ∈ es, e.user = user := by
        obtain ⟨x, hx, hxu⟩ := List.any_eq_true.mp hany
        exact ⟨x, hx, by simpa using hxu⟩
      simp only [countedView, hany, if_true] at hget
      cases hm : t.get? user with
      | none => simp [hm] at hget
      | some m =>
        simp only [hm, Option.map_some', Option.some.injEq] at hget
        have hma : m.get? action = heldCount (occurrences es user action) :=
          congrFun (congrArg ActionsView.get hget) action
        refine ⟨?_, ?_⟩
        · simp only [countOf, index, hm, hma, heldCount]
        · simp [hex]
    | false =>
      have hnex : ¬ ∃ e ∈ es, e.user = user := by
        rintro ⟨x, hx, hxu⟩
        have : es.any (fun e => e.user == user) = true :=
          List.any_eq_true.mpr ⟨x, hx, by simp [hxu]⟩
        rw [hany] at this
        exact Bool.noConfusion this
      simp only [countedView, hany, Bool.false_eq_true, if_false] at hget
      cases hm : t.get? user with
      | some m => simp [hm] at hget
      | none =>
        refine ⟨?_, ?_⟩
        · simp only [countOf, index, hm, occurrences_eq_zero_of_no_user es user action hany,
            if_true]
          rfl
        · simp [hnex]

theorem wellTyped_iff_view (t : countableUserActions) :
    wellTyped t ↔ wellTypedView (viewTable t) := by
  constructor
  · rintro ⟨h1, h2⟩
    refine ⟨h1, fun u mv hmv => ?_⟩
    simp only [viewTable] at hmv
    cases hm : t.get? u with
    | none => simp [hm] at hmv
    | some m =>
      simp only [hm, Option.map_some', Option.some.injEq] at hmv
      subst hmv
      exact h2 u m hm
  · rintro ⟨h1, h2⟩
    refine ⟨h1, fun u m hm => ?_⟩
    have := h2 u (viewActions m) (by simp [viewTable, hm])
    exact this

theorem countsView_viewContent (v : TableView) (h : wellTypedView v) (u : String) :
    countsView (viewContent v.get u) := by
  intro a x hx
  simp only [viewContent] at hx
  cases hm : v.get u with
  | none => simp [hm] at hx
  | some m =>
    have hmn := (h.2 u m hm).1
    simp only [hm, hmn, Bool.false_eq_true, if_false] at hx
    exact (h.2 u m hm).2 a x hx

theorem viewBump_counts (g : String → Option GoValue) (hg : countsView g) (a : String) :
    ∃ g1, viewBump g a = some g1 ∧ countsView g1 := by
  have hupd : ∀ n, n < 2 ^ 64 → countsView (Function.update g a (some (GoValue.uint64 n))) := by
    intro n hn b x hx
    by_cases hb : b = a
    · subst hb
      simp only [Function.update_same, Option.some.injEq] at hx
      exact ⟨n, hn, hx.symm⟩
    · simp only [Function.update_noteq hb] at hx
      exact hg b x hx
  cases hga : g a with
  | none =>
    exact ⟨_, by simp only [viewBump, hga], hupd 0 (by norm_num)⟩
  | some x =>
    obtain ⟨n, _, hx⟩ := hg a x hga
    subst hx
    exact ⟨Function.update g a (some (GoValue.uint64 ((n + 1) % 2 ^ 64))),
      by simp only [viewBump, hga, GoValue.assertUint64],
      hupd _ (Nat.mod_lt _ (by norm_num))⟩

theorem viewIncrement_wellTyped (v : TableView) (h : wellTypedView v) (e : incrementUserAction) :
    ∃ v1, viewIncrement v e = some v1 ∧ wellTypedView v1 := by
  obtain ⟨g1, hb, hg1⟩ := viewBump_counts _ (countsView_viewContent v h e.user) e.action
  refine ⟨⟨false, Function.update v.get e.user (some ⟨false, g1⟩)⟩,
    by simp only [viewIncrement, h.1, hb, Bool.false_eq_true, if_false], rfl, ?_⟩
  intro u m hm
  by_cases hu : u = e.user
  · subst hu
    simp only [Function.update_same, Option.some.injEq] at hm
    subst hm
    exact ⟨rfl, hg1⟩
  · simp only [Function.update_noteq hu] at hm
    exact h.2 u m hm

theorem incrementCase_wellTyped (t : countableUserActions) (h : wellTyped t)
    (e : incrementUserAction) : ∃ t1, incrementCase t e = some t1 ∧ wellTyped t1 := by
  obtain ⟨v1, hv1, hw⟩ := viewIncrement_wellTyped _ ((wellTyped_iff_view t).mp h) e
  have hsim := viewTable_incrementCase t e
  rw [hv1] at hsim
  cases hc : incrementCase t e with
  | none => simp [hc] at hsim
  | some t1 =>
    simp only [hc, Option.map_some', Option.some.injEq] at hsim
    exact ⟨t1, rfl, (wellTyped_iff_view t1).mpr (hsim ▸ hw)⟩

theorem wellTyped_make : wellTyped (GoMap.make : countableUserActions) := by
  refine ⟨rfl, fun u m hm => ?_⟩
  simp [GoMap.make, GoMap.get?, getEntry] at hm

theorem ReportMetrics_wellTyped (reqs : List Request) (s : LoopState) (h : wellTyped s.table) :
    ∃ s1, ReportMetrics s reqs = some s1 ∧ wellTyped s1.table := by
  induction reqs generalizing s with
  | nil => exact ⟨s, rfl, h⟩
  | cons r rs ih =>
    cases r with
    | increment e =>
      obtain ⟨t1, ht1, hw⟩ := incrementCase_wellTyped s.table h e
      obtain ⟨s2, hs2, hw2⟩ := ih { table := t1, batches := s.batches } hw
      exact ⟨s2, by simp only [ReportMetrics, selectCase, ht1, hs2], hw2⟩
    | readBatch =>
      obtain ⟨s2, hs2, hw2⟩ :=
        ih { table := (readBatchCase s.table).2,
             batches := s.batches ++ [(readBatchCase s.table).1] } wellTyped_make
      exact ⟨s2, by simp only [ReportMetrics, selectCase, hs2], hw2⟩

theorem runIncrements_wellTyped (es : List incrementUserAction) (t : countableUserActions)
    (h : wellTyped t) : ∃ t1, runIncrements t es = some t1 ∧ wellTyped t1 := by
  induction es generalizing t with
  | nil => exact ⟨t, rfl, h⟩
  | cons e es ih =>
    obtain ⟨t1, ht1, hw⟩ := incrementCase_wellTyped t h e
    obtain ⟨t2, ht2, hw2⟩ := ih t1 hw
    exact ⟨t2, by simp only [runIncrements, ht1, ht2], hw2⟩

/-- C9: for every table and every two sequences of increment messages that are
permutations of each other, running the increment case over either sequence from
that table has the same outcome: both runs panic, or both end in tables with the
same users, the same actions and the same counts; and from a table that holds
only `uint64` counts both runs do end in such a table. -/
theorem increments_order_independent (t : countableUserActions)
    (s1 s2 : List incrementUserAction) (h : s1.Perm s2) :
    sameOutcome (runIncrements t s1) (runIncrements t s2) ∧
    (wellTyped t → ∃ t1 t2, runIncrements t s1 = some t1 ∧ runIncrements t s2 = some t2 ∧
      sameTable t1 t2) := by
  have hv : (runIncrements t s1).map viewTable = (runIncrements t s2).map viewTable := by
    rw [viewTable_runIncrements, viewTable_runIncrements]
    exact foldl_viewStep_perm h _
  have hsame : sameOutcome (runIncrements t s1) (runIncrements t s2) := by
    cases h1 : runIncrements t s1 <;> cases h2 : runIncrements t s2 <;>
      simp [h1, h2, sameOutcome] at hv ⊢
    exact sameTable_of_view_eq _ _ hv
  refine ⟨hsame, fun hw => ?_⟩
  obtain ⟨t1, ht1, _⟩ := runIncrements_wellTyped s1 t hw
  obtain ⟨t2, ht2, _⟩ := runIncrements_wellTyped s2 t hw
  rw [ht1, ht2] at hsame
  exact ⟨t1, t2, ht1, ht2, hsame⟩

/-- C9 at a table that already counts alice/Commit, with three messages in two orders. -/
theorem increments_order_independent_witness :
    [IncrementUserAction "alice" "Commit", IncrementUserAction "bob" "Pipeline",
        IncrementUserAction "alice" "Commit"].Perm
      [IncrementUserAction "bob" "Pipeline", IncrementUserAction "alice" "Commit",
        IncrementUserAction "alice" "Commit"] ∧
    (sameOutcome
      (runIncrements (GoMap.entries [("alice", GoMap.entries [("Commit", GoValue.uint64 7)])])
        [IncrementUserAction "alice" "Commit", IncrementUserAction "bob" "Pipeline",
          IncrementUserAction "alice" "Commit"])
      (runIncrements (GoMap.entries [("alice", GoMap.entries [("Commit", GoValue.uint64 7)])])
        [IncrementUserAction "bob" "Pipeline", IncrementUserAction "alice" "Commit",
          IncrementUserAction "alice" "Commit"]) ∧
    (wellTyped (GoMap.entries [("alice", GoMap.entries [("Commit", GoValue.uint64 7)])]) →
      ∃ t1 t2,
        runIncrements (GoMap.entries [("alice", GoMap.entries [("Commit", GoValue.uint64 7)])])
          [IncrementUserAction "alice" "Commit", IncrementUserAction "bob" "Pipeline",
            IncrementUserAction "alice" "Commit"] = some t1 ∧
        runIncrements (GoMap.entries [("alice", GoMap.entries [("Commit", GoValue.uint64 7)])])
          [IncrementUserAction "bob" "Pipeline", IncrementUserAction "alice" "Commit",
            IncrementUserAction "alice" "Commit"] = some t2 ∧
        sameTable t1 t2)) :=
  ⟨by decide, increments_order_independent _ _ _ (by decide)⟩

/-- C10: every sequence of increment and drain steps from the initial empty table
runs without a panic, and the table it reaches holds only `uint64` values and no nil
per-user map; hence the increment case, with its assertion `val.(uint64)`,
succeeds on every message in every reachable table. -/
theorem reachable_tables_wellTyped (reqs : List Request) :
    ∃ s, ReportMetrics initialLoop reqs = some s ∧ wellTyped s.table ∧
      ∀ e, ∃ t1, incrementCase s.table e = some t1 := by
  obtain ⟨s, hs, hw⟩ := ReportMetrics_wellTyped reqs initialLoop wellTyped_make
  exact ⟨s, hs, hw, fun e => (incrementCase_wellTyped s.table hw e).imp fun _ h => h.1⟩

end Metrics
